import Mathlib

/-!
# Verification of the OKR app's mapper/sync/session core

Shallow embedding of the logic core of `src/okr_app.py`:

* the domain dataclasses `Task`, `KeyResult`, `Objective` with their derived
  `progress` properties (Python floats are modelled as rationals `ℚ`);
* the record mapper `OKRState.to_dataframe` / `OKRState._parse_dataframe`
  (a pandas `DataFrame` is modelled as a `List Record`, one `Record` per row;
  a nullable cell is an `Option`);
* the tenant-scoped store `DatabaseManager.load_client_data` /
  `DatabaseManager.sync_data` (the `okr_data` table is modelled as a
  `List Record`; the committed transaction is the returned list);
* the session operations `OKRState.save`, `OKRState.rename_department`,
  `OKRState.delete_department`, `OKRState.get_departments` and the dirty flag.

The `id` fields (random `uuid4`, regenerated on every construction and never
compared or persisted through the mapper's value columns) and the UI-only
`expanded` flags are omitted from the embedding: no modelled operation reads
them, and the specification's properties are all stated modulo ids.
-/

namespace Okr

/-- `Task` dataclass of `okr_app.py` (sans the random `id`). `deadline` is
`Optional[str]` in the source, hence `Option String` here. -/
structure Task where
  description : String := ""
  status : String := "Não Iniciado"
  responsible : String := ""
  deadline : Option String := none
  deriving DecidableEq, Repr

/-- `KeyResult` dataclass of `okr_app.py` (sans `id` and the UI-only
`expanded`). -/
structure KeyResult where
  name : String := ""
  target : ℚ := 1
  current : ℚ := 0
  tasks : List Task := []
  deriving DecidableEq, Repr

/-- `Objective` dataclass of `okr_app.py` (sans `id` and the UI-only
`expanded`). -/
structure Objective where
  department : String := "Geral"
  name : String := ""
  krs : List KeyResult := []
  deriving DecidableEq, Repr

/-- One row of the `okr_data` table / of the dataframe exchanged between the
mapper and the store.  `prazo` may be `NULL`/`None` (tasks may have no
deadline), and the numeric columns may be `NULL`, hence the `Option`s. -/
structure Record where
  departamento : String
  objetivo : String
  kr : String
  tarefa : String
  status : String
  responsavel : String
  prazo : Option String
  avanco : Option ℚ
  alvo : Option ℚ
  cliente : String
  deriving DecidableEq, Repr

/-- `KeyResult.progress`:
`if self.target == 0: return 1.0 if self.current >= 0 else 0.0` followed by
`min(max(self.current / self.target, 0.0), 1.0)`. -/
def KeyResult.progress (k : KeyResult) : ℚ :=
  if k.target = 0 then (if 0 ≤ k.current then 1 else 0)
  else min (max (k.current / k.target) 0) 1

/-- `Objective.progress`:
`if not self.krs: return 0.0` then `sum(k.progress for k in self.krs) / len(self.krs)`. -/
def Objective.progress (o : Objective) : ℚ :=
  if o.krs = [] then 0
  else (o.krs.map KeyResult.progress).sum / (o.krs.length : ℚ)

/-- The rows `OKRState.to_dataframe` appends for one `KeyResult` of one
`Objective`: a single placeholder row when the KR has no tasks, else one row
per task (duplicating the KR's `current`/`target` on each). -/
def krRows (client : String) (obj : Objective) (kr : KeyResult) : List Record :=
  if kr.tasks = [] then
    [⟨obj.department, obj.name, kr.name, "", "", "", some "", some kr.current, some kr.target, client⟩]
  else
    kr.tasks.map fun task =>
      ⟨obj.department, obj.name, kr.name, task.description, task.status,
        task.responsible, task.deadline, some kr.current, some kr.target, client⟩

/-- The rows `OKRState.to_dataframe` appends for one `Objective`: a single
placeholder row (avanco 0.0, alvo 1.0) when it has no KRs, else the rows of
its KRs in order. -/
def objRows (client : String) (obj : Objective) : List Record :=
  if obj.krs = [] then
    [⟨obj.department, obj.name, "", "", "", "", some "", some 0, some 1, client⟩]
  else
    obj.krs.flatMap (krRows client obj)

/-- `OKRState.to_dataframe`: flatten the objective tree into rows, in order. -/
def OKRState.to_dataframe (client : String) (objectives : List Objective) : List Record :=
  objectives.flatMap (objRows client)

/-- The target read by `_parse_dataframe`: `float(row['alvo'] or 1.0)`.
A missing (`NaN`, filled to `''`) or falsy (`0.0`) cell defaults to `1.0`. -/
def parseTarget : Option ℚ → ℚ
  | none => 1
  | some a => if a = 0 then 1 else a

/-- The current value read by `_parse_dataframe`: `float(row['avanco'] or 0.0)`.
A missing or falsy cell defaults to `0.0`. -/
def parseCurrent : Option ℚ → ℚ
  | none => 0
  | some a => if a = 0 then 0 else a

/-- The `Task` built by `_parse_dataframe` from a row with non-empty `tarefa`:
`Task(description=row['tarefa'], status=row['status'], responsible=row['responsavel'],
deadline=str(row['prazo']))` — after `df.fillna('')`, so a `NULL` deadline
becomes the string `""` and the stored deadline is always `some _`. -/
def Record.toTask (r : Record) : Task :=
  { description := r.tarefa, status := r.status, responsible := r.responsavel,
    deadline := some (r.prazo.getD "") }

/-- `kr.tasks.append(task)` on the KR found by `next((k for k in obj.krs if
k.name == row['kr']), None)`: append the task to the first KR with the given
name (no-op when no KR has that name). -/
def addTaskNamed (krName : String) (t : Task) : List KeyResult → List KeyResult
  | [] => []
  | k :: ks =>
    if k.name = krName then { k with tasks := k.tasks ++ [t] } :: ks
    else k :: addTaskNamed krName t ks

/-- The `KeyResult` freshly created by `_parse_dataframe` for a row whose
`kr` name is not yet present:
`KeyResult(name=row['kr'], target=float(row['alvo'] or 1.0), current=float(row['avanco'] or 0.0))`. -/
def newKRFromRow (r : Record) : KeyResult :=
  { name := r.kr, target := parseTarget r.alvo, current := parseCurrent r.avanco, tasks := [] }

/-- `kr = next((k for k in obj.krs if k.name == row['kr']), None)` followed by
the `if not kr: obj.krs.append(...)`: the objective's KR list after the
find-or-create step. -/
def findOrCreateKR (krs : List KeyResult) (r : Record) : List KeyResult :=
  if ∃ k ∈ krs, k.name = r.kr then krs else krs ++ [newKRFromRow r]

/-- The body of `_parse_dataframe`'s loop for one row, acting on the row's
objective: skip rows with empty `kr`; find-or-create the KR by name (values
from `parseTarget`/`parseCurrent` only at creation); append a task to that KR
when `tarefa` is non-empty. -/
def processRowInObj (obj : Objective) (r : Record) : Objective :=
  if r.kr = "" then obj
  else if r.tarefa = "" then { obj with krs := findOrCreateKR obj.krs r }
  else { obj with krs := addTaskNamed r.kr (Record.toTask r) (findOrCreateKR obj.krs r) }

/-- One iteration of `_parse_dataframe`'s loop on the insertion-ordered
`objs_dict` (modelled as a list keyed by `(departamento, objetivo)`):
find-or-create the row's objective, then process the row inside it. -/
def processRow : List Objective → Record → List Objective
  | [], r => [processRowInObj { department := r.departamento, name := r.objetivo } r]
  | o :: os, r =>
    if o.department = r.departamento ∧ o.name = r.objetivo then processRowInObj o r :: os
    else o :: processRow os r

/-- `OKRState._parse_dataframe`: fold the rows through the grouping loop;
an empty dataframe yields `[]`. -/
def OKRState.parse_dataframe (records : List Record) : List Objective :=
  records.foldl processRow []

/-- The id-less view of a `Task` used to compare trees modulo ids. -/
def Task.view (t : Task) : String × String × String × Option String :=
  (t.description, t.status, t.responsible, t.deadline)

/-- The id-less view of a `KeyResult`: name, current, target and the multiset
of its tasks' views. -/
def KeyResult.view (k : KeyResult) :
    String × ℚ × ℚ × Multiset (String × String × String × Option String) :=
  (k.name, k.current, k.target, (k.tasks.map Task.view : Multiset _))

/-- The id-less view of an `Objective`: department, name and the multiset of
its KRs' views. -/
def Objective.view (o : Objective) :
    String × String ×
      Multiset (String × ℚ × ℚ × Multiset (String × String × String × Option String)) :=
  (o.department, o.name, (o.krs.map KeyResult.view : Multiset _))

/-- The id-less view of a whole objective tree: the multiset of the
objectives' views.  Two trees are "the same modulo ids" iff their views are
equal. -/
def treeView (objs : List Objective) :
    Multiset (String × String ×
      Multiset (String × ℚ × ℚ × Multiset (String × String × String × Option String))) :=
  (objs.map Objective.view : Multiset _)

/-- Stamping a record with a tenant: `df['cliente'] = client`. -/
def stampClient (client : String) (r : Record) : Record := { r with cliente := client }

/-- `DatabaseManager.load_client_data`:
`SELECT * FROM okr_data WHERE cliente = :c` over the table (the soft-failure
path returns an empty frame and is modelled separately by the caller). -/
def DatabaseManager.load_client_data (client : String) (db : List Record) : List Record :=
  db.filter fun r => r.cliente = client

/-- `DatabaseManager.sync_data` (the committed success path): delete every row
of `client`, stamp the dataframe's rows with `client`, insert them. -/
def DatabaseManager.sync_data (df : List Record) (client : String) (db : List Record) :
    List Record :=
  (db.filter fun r => ¬ (r.cliente = client)) ++ df.map (stampClient client)

/-- The session state owned by `OKRState`: the tenant, the in-memory tree and
the dirty flag. -/
structure OKRState where
  cliente : String
  objectives : List Objective
  is_dirty : Bool
  deriving DecidableEq, Repr

/-- The user-facing signal of `ui.notify` in `OKRState.save`. -/
inductive Notify where
  | positive
  | negative
  deriving DecidableEq, Repr

/-- `OKRState.save`: flatten the tree, call `sync_data` once (no retry);
`storeOk` is the boolean `sync_data` returns (`False` when the transaction
raised and rolled back, leaving the table unchanged).  On success the dirty
flag is cleared and a positive notify is shown; on failure the state and the
table are untouched and a negative notify is shown. -/
def OKRState.save (s : OKRState) (db : List Record) (storeOk : Bool) :
    OKRState × List Record × Notify :=
  let df := OKRState.to_dataframe s.cliente s.objectives
  if storeOk then
    ({ s with is_dirty := false }, DatabaseManager.sync_data df s.cliente db, Notify.positive)
  else (s, db, Notify.negative)

/-- `OKRState.rename_department`: guard `if not new_name: return`; otherwise
retag every matching objective and `mark_dirty()` iff some objective matched. -/
def OKRState.rename_department (s : OKRState) (old_name new_name : String) : OKRState :=
  if new_name = "" then s
  else
    { s with
      objectives := s.objectives.map fun o =>
        if o.department = old_name then { o with department := new_name } else o,
      is_dirty := if ∃ o ∈ s.objectives, o.department = old_name then true else s.is_dirty }

/-- `OKRState.delete_department`: keep the objectives of other departments and
`mark_dirty()` iff the list shrank. -/
def OKRState.delete_department (s : OKRState) (dept_name : String) : OKRState :=
  let remaining := s.objectives.filter fun o => ¬ (o.department = dept_name)
  { s with
    objectives := remaining,
    is_dirty := if remaining.length < s.objectives.length then true else s.is_dirty }

/-- `OKRState.get_departments`: `sorted(list(set(...)))` modelled as
`Finset.sort` on the departments' finset, with the `["Geral"]` fallback. -/
def OKRState.get_departments (objectives : List Objective) : List String :=
  let depts := (objectives.map Objective.department).toFinset.sort (· ≤ ·)
  if depts = [] then ["Geral"] else depts

set_option synthInstance.maxSize 512 in
/-- Decidable equality of KR views, registered so that deciding equality of
nested tree views stays within the default instance-search limits. -/
instance : DecidableEq (String × ℚ × ℚ × Multiset (String × String × String × Option String)) :=
  inferInstance

set_option synthInstance.maxSize 512 in
/-- Decidable equality of objective views. -/
instance : DecidableEq (String × String ×
    Multiset (String × ℚ × ℚ × Multiset (String × String × String × Option String))) :=
  inferInstance

/-- The objective trees the mapper can persist and reload faithfully: KR names
within an objective are distinct and non-empty, no KR has target `0` (Python's
`row['alvo'] or 1.0` treats a stored `0.0` as falsy), and every task has a
non-empty description and an actual (non-`None`) deadline string. -/
def WFObjective (o : Objective) : Prop :=
  (o.krs.map KeyResult.name).Nodup ∧
  ∀ k ∈ o.krs, k.name ≠ "" ∧ k.target ≠ 0 ∧
    ∀ t ∈ k.tasks, t.description ≠ "" ∧ t.deadline ≠ none

instance (o : Objective) : Decidable (WFObjective o) := by
  unfold WFObjective; infer_instance

/-- A one-objective tree whose single KR has target `0` and current `5`:
the round-trip counterexample input. -/
def cexTree : List Objective :=
  [{ department := "Geral", name := "Obj",
     krs := [{ name := "K", target := 0, current := 5, tasks := [] }] }]

/-- A well-formed two-objective tree used as the round-trip witness input:
one childless objective, one objective with a task-bearing KR and a taskless
KR. -/
def wTree : List Objective :=
  [{ department := "D", name := "O1", krs := [] },
   { department := "D", name := "O2",
     krs := [{ name := "K1", target := 5, current := 1,
               tasks := [{ description := "t1", status := "Em Andamento",
                           responsible := "r", deadline := some "2025-01-01" },
                         { description := "t2", status := "Pausado",
                           responsible := "", deadline := some "" }] },
             { name := "K2", target := 3, current := 3, tasks := [] }] }]

/-- A concrete persisted row of tenant `"b"`, used as the other tenant's data
in store witnesses. -/
def wRow : Record :=
  { departamento := "D", objetivo := "O", kr := "K", tarefa := "t", status := "Pausado",
    responsavel := "r", prazo := some "p", avanco := some 2, alvo := some 4, cliente := "b" }

/-- A session whose single objective sits in department `"Geral"`, with the
dirty flag clear. -/
def c9State : OKRState :=
  { cliente := "c", objectives := [{ department := "Geral", name := "o", krs := [] }],
    is_dirty := false }

/-- A two-department session used as the rename/delete witness input. -/
def w9State : OKRState :=
  { cliente := "c",
    objectives := [{ department := "Geral", name := "o1", krs := [] },
                   { department := "Mkt", name := "o2", krs := [] }],
    is_dirty := false }

/-- A row for objective `("D", "O")` creating KR `"K"` with avanco `2`, alvo
`7`. -/
def dupRow1 : Record :=
  { departamento := "D", objetivo := "O", kr := "K", tarefa := "", status := "",
    responsavel := "", prazo := some "", avanco := some 2, alvo := some 7, cliente := "c" }

/-- A later duplicate row for the same KR `"K"` with different numbers
(avanco `9`, alvo `9`), which must not overwrite the first row's values. -/
def dupRow2 : Record :=
  { departamento := "D", objetivo := "O", kr := "K", tarefa := "", status := "",
    responsavel := "", prazo := some "", avanco := some 9, alvo := some 9, cliente := "c" }

/-! ## Theorems -/

/-- C2: for every `KeyResult`, `progress` equals `clamp(current/target, 0, 1)`
when the target is nonzero; when `target = 0` it equals `1` if `current ≥ 0`
and `0` otherwise; consequently `progress` always lies in `[0, 1]`. -/
theorem keyResult_progress_spec (k : KeyResult) :
    (k.target ≠ 0 → k.progress = min (max (k.current / k.target) 0) 1) ∧
    (k.target = 0 → 0 ≤ k.current → k.progress = 1) ∧
    (k.target = 0 → k.current < 0 → k.progress = 0) ∧
    0 ≤ k.progress ∧ k.progress ≤ 1 := by
  have hp : k.progress = if k.target = 0 then (if 0 ≤ k.current then 1 else 0)
      else min (max (k.current / k.target) 0) 1 := rfl
  by_cases h : k.target = 0
  · by_cases hc : (0 : ℚ) ≤ k.current
    · rw [hp, if_pos h, if_pos hc]
      exact ⟨fun h' => absurd h h', fun _ _ => rfl, fun _ hlt => absurd hlt (not_lt.mpr hc),
        by norm_num, by norm_num⟩
    · rw [hp, if_pos h, if_neg hc]
      exact ⟨fun h' => absurd h h', fun _ hc' => absurd hc' hc, fun _ _ => rfl,
        by norm_num, by norm_num⟩
  · rw [hp, if_neg h]
    exact ⟨fun _ => rfl, fun h0 => absurd h0 h, fun h0 => absurd h0 h,
      le_min (le_max_right _ _) zero_le_one, min_le_right _ _⟩

/-- C2 witness: at `target = 0, current = 5` the progress is `1`, and at
`target = 0, current = -1` it is `0`. -/
theorem keyResult_progress_spec_witness :
    KeyResult.progress { name := "k", target := 0, current := 5 } = 1 ∧
    KeyResult.progress { name := "k", target := 0, current := -1 } = 0 :=
  ⟨(keyResult_progress_spec { name := "k", target := 0, current := 5 }).2.1 rfl (by norm_num),
   (keyResult_progress_spec { name := "k", target := 0, current := -1 }).2.2.1 rfl (by norm_num)⟩

/-- C3: an objective's progress is the arithmetic mean of its KRs' progresses,
`0` when it has no KRs; two KRs of progress `0.2` and `0.8` average to `0.5`. -/
theorem objective_progress_spec (o : Objective) :
    (o.krs = [] → o.progress = 0) ∧
    (o.krs ≠ [] → o.progress = (o.krs.map KeyResult.progress).sum / (o.krs.length : ℚ)) ∧
    KeyResult.progress ⟨"a", 5, 1, []⟩ = 2/10 ∧
    KeyResult.progress ⟨"b", 5, 4, []⟩ = 8/10 ∧
    Objective.progress ⟨"Dept", "Obj", [⟨"a", 5, 1, []⟩, ⟨"b", 5, 4, []⟩]⟩ = 5/10 := by
  refine ⟨fun h => by simp [Objective.progress, h],
          fun h => by simp [Objective.progress, h], ?_, ?_, ?_⟩
  · norm_num [KeyResult.progress, min_def, max_def]
  · norm_num [KeyResult.progress, min_def, max_def]
  · rw [show Objective.progress ⟨"Dept", "Obj", [⟨"a", 5, 1, []⟩, ⟨"b", 5, 4, []⟩]⟩
        = (KeyResult.progress ⟨"a", 5, 1, []⟩ + (KeyResult.progress ⟨"b", 5, 4, []⟩ + 0)) / 2
      from rfl]
    norm_num [KeyResult.progress, min_def, max_def]

/-- C3 witness: the empty objective has progress `0`, and a concrete
two-KR objective has the mean progress. -/
theorem objective_progress_spec_witness :
    Objective.progress { department := "D", name := "O", krs := [] } = 0 :=
  (objective_progress_spec { department := "D", name := "O", krs := [] }).1 rfl

/-- C8: `OKRState.save` flattens the current tree and calls the store once;
on store success the dirty flag is cleared, the tenant's table is replaced and
a positive notify is shown; on store failure the session (dirty flag included)
and the table are untouched and a negative notify is shown — no retry. -/
theorem save_spec (s : OKRState) (db : List Record) :
    ((s.save db true).1.is_dirty = false) ∧
    ((s.save db true).2.1 =
      DatabaseManager.sync_data (OKRState.to_dataframe s.cliente s.objectives) s.cliente db) ∧
    ((s.save db true).2.2 = Notify.positive) ∧
    ((s.save db false).1 = s) ∧
    ((s.save db false).1.is_dirty = s.is_dirty) ∧
    ((s.save db false).2.1 = db) ∧
    ((s.save db false).2.2 = Notify.negative) := by
  simp [OKRState.save]

/-- C10: `get_departments` is the sorted duplicate-free list of the
objectives' departments, is `["Geral"]` when there are no objectives, and is
never empty. -/
theorem get_departments_spec (objs : List Objective) :
    (objs = [] → OKRState.get_departments objs = ["Geral"]) ∧
    OKRState.get_departments objs ≠ [] ∧
    (OKRState.get_departments objs).Sorted (· ≤ ·) ∧
    (OKRState.get_departments objs).Nodup ∧
    (objs ≠ [] →
      ∀ d, d ∈ OKRState.get_departments objs ↔ d ∈ objs.map Objective.department) := by
  simp only [OKRState.get_departments]
  by_cases h : (objs.map Objective.department).toFinset.sort (· ≤ ·) = []
  · rw [if_pos h]
    refine ⟨fun _ => rfl, by simp, List.sorted_singleton _, List.nodup_singleton _,
      fun hne d => ?_⟩
    exfalso
    obtain ⟨o, ho⟩ := List.exists_mem_of_ne_nil objs hne
    have hm : o.department ∈ (objs.map Objective.department).toFinset := by
      rw [List.mem_toFinset]
      exact List.mem_map_of_mem Objective.department ho
    have hs := (Finset.mem_sort (α := String) (· ≤ ·)).mpr hm
    rw [h] at hs
    exact absurd hs (List.not_mem_nil _)
  · rw [if_neg h]
    refine ⟨fun he => absurd (by simp [he]) h, h, Finset.sort_sorted _ _,
      Finset.sort_nodup _ _, fun _ d => ?_⟩
    rw [Finset.mem_sort, List.mem_toFinset]

/-- C10 witness: the empty session yields `["Geral"]`, and a concrete session
has its sorted distinct departments. -/
theorem get_departments_spec_witness :
    OKRState.get_departments [] = ["Geral"] ∧
    (∀ d, d ∈ OKRState.get_departments w9State.objectives ↔
      d ∈ w9State.objectives.map Objective.department) :=
  ⟨(get_departments_spec []).1 rfl,
   (get_departments_spec w9State.objectives).2.2.2.2 (by decide)⟩

/-- C6: after `sync_data df client db` the persisted rows of `client` are
exactly the rows of `df`, each stamped with `client`; an empty `df` leaves the
tenant with zero rows. -/
theorem sync_data_spec (df db : List Record) (client : String) :
    ((DatabaseManager.sync_data df client db).filter (fun r => r.cliente = client)
        = df.map (stampClient client)) ∧
    (df = [] →
      (DatabaseManager.sync_data df client db).filter (fun r => r.cliente = client) = []) := by
  have hmain : (DatabaseManager.sync_data df client db).filter (fun r => r.cliente = client)
      = df.map (stampClient client) := by
    unfold DatabaseManager.sync_data
    rw [List.filter_append]
    have h1 : ((db.filter fun r => ¬(r.cliente = client)).filter
        fun r => r.cliente = client) = [] := by
      rw [List.filter_filter]
      refine List.filter_eq_nil_iff.mpr fun a _ => ?_
      simp only [Bool.and_eq_true, decide_eq_true_eq]
      exact fun hc => hc.2 hc.1
    have h2 : ((df.map (stampClient client)).filter fun r => r.cliente = client)
        = df.map (stampClient client) := by
      refine List.filter_eq_self.mpr fun a ha => ?_
      obtain ⟨b, _, rfl⟩ := List.mem_map.mp ha
      simp [stampClient]
    rw [h1, h2, List.nil_append]
  exact ⟨hmain, fun hdf => by simp [hdf] at hmain ⊢; exact hmain⟩

/-- C6 witness: saving the empty record list for tenant `"a"` over a table
holding a `"b"` row leaves tenant `"a"` with zero rows. -/
theorem sync_data_spec_witness :
    ((DatabaseManager.sync_data [] "a" [wRow]).filter (fun r => r.cliente = "a")
        = List.map (stampClient "a") []) ∧
    ((DatabaseManager.sync_data [] "a" [wRow]).filter (fun r => r.cliente = "a") = []) :=
  ⟨(sync_data_spec [] [wRow] "a").1, (sync_data_spec [] [wRow] "a").2 rfl⟩

/-- C7: `load_client_data tenantA` returns only rows of `tenantA`, and
`sync_data df tenantA` leaves the persisted rows of any other tenant `tenantB`
unchanged. -/
theorem tenant_isolation (tenantA tenantB : String) (db df : List Record)
    (hne : tenantA ≠ tenantB) :
    (∀ r ∈ DatabaseManager.load_client_data tenantA db, r.cliente = tenantA) ∧
    ((DatabaseManager.sync_data df tenantA db).filter (fun r => r.cliente = tenantB)
      = db.filter (fun r => r.cliente = tenantB)) := by
  constructor
  · intro r hr
    have h := List.mem_filter.mp hr
    simpa using h.2
  · unfold DatabaseManager.sync_data
    rw [List.filter_append]
    have h2 : ((df.map (stampClient tenantA)).filter fun r => r.cliente = tenantB) = [] := by
      refine List.filter_eq_nil_iff.mpr fun a ha => ?_
      obtain ⟨b, _, rfl⟩ := List.mem_map.mp ha
      simp only [stampClient, decide_eq_true_eq]
      exact hne
    rw [h2, List.append_nil, List.filter_filter]
    refine List.filter_congr fun a _ => ?_
    by_cases hB : a.cliente = tenantB
    · have hA : ¬ (a.cliente = tenantA) := fun hA => hne (hA ▸ hB)
      simp [hA, hB]
      exact fun hba => hne hba.symm
    · simp [hB]

/-- C7 witness: with tenants `"a" ≠ "b"`, a `"b"` row is neither returned by
`load("a")` nor touched by `save([], "a")`. -/
theorem tenant_isolation_witness :
    (∀ r ∈ DatabaseManager.load_client_data "a" [wRow], r.cliente = "a") ∧
    ((DatabaseManager.sync_data [] "a" [wRow]).filter (fun r => r.cliente = "b")
      = [wRow].filter (fun r => r.cliente = "b")) :=
  tenant_isolation "a" "b" [wRow] [] (by decide)

/-- C9 counterexample: with an objective in department `"Geral"` and
`new_name = ""`, `rename_department "Geral" ""` changes nothing — the claim's
predicted outcome (department set to `""` and the dirty flag set) is false,
because of the `if not new_name: return` guard. -/
theorem rename_department_cex :
    ¬ (((c9State.rename_department "Geral" "").objectives.map Objective.department
          = [""]) ∧
       (c9State.rename_department "Geral" "").is_dirty = true) := by
  decide

/-- C9 (amended to non-empty `new_name`): `rename_department old new` with
`new ≠ ""` retags exactly the matching objectives and sets the dirty flag iff
some objective matched; `delete_department` removes exactly the matching
objectives and sets the dirty flag iff some objective matched; non-matching
calls leave the dirty flag unchanged. -/
theorem rename_delete_department_spec (s : OKRState)
    (old_name new_name dept_name : String) (h : new_name ≠ "") :
    ((s.rename_department old_name new_name).objectives =
      s.objectives.map fun o =>
        if o.department = old_name then { o with department := new_name } else o) ∧
    ((∃ o ∈ s.objectives, o.department = old_name) →
      (s.rename_department old_name new_name).is_dirty = true) ∧
    ((¬ ∃ o ∈ s.objectives, o.department = old_name) →
      (s.rename_department old_name new_name).is_dirty = s.is_dirty) ∧
    ((s.delete_department dept_name).objectives =
      s.objectives.filter fun o => ¬ (o.department = dept_name)) ∧
    ((∃ o ∈ s.objectives, o.department = dept_name) →
      (s.delete_department dept_name).is_dirty = true) ∧
    ((¬ ∃ o ∈ s.objectives, o.department = dept_name) →
      (s.delete_department dept_name).is_dirty = s.is_dirty) := by
  unfold OKRState.rename_department OKRState.delete_department
  rw [if_neg h]
  refine ⟨rfl, fun hex => by rw [if_pos hex], fun hex => by rw [if_neg hex], rfl, ?_, ?_⟩
  · intro hex
    have hlt : ((s.objectives.filter fun o => ¬ (o.department = dept_name)).length
        < s.objectives.length) := by
      refine List.length_filter_lt_length_iff_exists.mpr ?_
      obtain ⟨o, ho, hdep⟩ := hex
      exact ⟨o, ho, by simpa using hdep⟩
    show (if ((s.objectives.filter fun o => ¬ (o.department = dept_name)).length
        < s.objectives.length) then true else s.is_dirty) = true
    rw [if_pos hlt]
  · intro hex
    have hge : ¬ ((s.objectives.filter fun o => ¬ (o.department = dept_name)).length
        < s.objectives.length) := by
      rw [List.length_filter_lt_length_iff_exists]
      rintro ⟨o, ho, hp⟩
      refine hex ⟨o, ho, ?_⟩
      simpa using hp
    show (if ((s.objectives.filter fun o => ¬ (o.department = dept_name)).length
        < s.objectives.length) then true else s.is_dirty) = s.is_dirty
    rw [if_neg hge]

/-- The rows of a KR are never empty: a taskless KR still yields its
placeholder row. -/
theorem krRows_ne_nil (client : String) (obj : Objective) (kr : KeyResult) :
    krRows client obj kr ≠ [] := by
  unfold krRows
  split
  · simp
  · next h => simpa using h

/-- The rows of an objective are never empty: a KR-less objective still yields
its placeholder row. -/
theorem objRows_ne_nil (client : String) (obj : Objective) : objRows client obj ≠ [] := by
  unfold objRows
  split
  · simp
  · next h =>
    obtain ⟨k, hk⟩ := List.exists_mem_of_ne_nil _ h
    obtain ⟨r, hr⟩ := List.exists_mem_of_ne_nil _ (krRows_ne_nil client obj k)
    intro hnil
    have hmem := List.mem_flatMap_of_mem hk hr
    rw [hnil] at hmem
    exact absurd hmem (List.not_mem_nil r)

/-- Every row a KR emits carries the objective's key, the KR's name and the
KR's current/target values. -/
theorem mem_krRows_fields {client : String} {obj : Objective} {kr : KeyResult} {r : Record}
    (hr : r ∈ krRows client obj kr) :
    r.departamento = obj.department ∧ r.objetivo = obj.name ∧ r.kr = kr.name ∧
      r.avanco = some kr.current ∧ r.alvo = some kr.target ∧ r.cliente = client := by
  unfold krRows at hr
  split at hr
  · rw [List.mem_singleton] at hr
    subst hr
    exact ⟨rfl, rfl, rfl, rfl, rfl, rfl⟩
  · obtain ⟨t, _, rfl⟩ := List.mem_map.mp hr
    exact ⟨rfl, rfl, rfl, rfl, rfl, rfl⟩

/-- Every row an objective emits carries the objective's key. -/
theorem mem_objRows_key {client : String} {obj : Objective} {r : Record}
    (hr : r ∈ objRows client obj) :
    r.departamento = obj.department ∧ r.objetivo = obj.name := by
  unfold objRows at hr
  split at hr
  · rw [List.mem_singleton] at hr
    subst hr
    exact ⟨rfl, rfl⟩
  · obtain ⟨k, _, hrk⟩ := List.mem_flatMap.mp hr
    exact ⟨(mem_krRows_fields hrk).1, (mem_krRows_fields hrk).2.1⟩

/-- A KR emits `max 1 (task count)` rows. -/
theorem length_krRows (client : String) (obj : Objective) (kr : KeyResult) :
    (krRows client obj kr).length = max 1 kr.tasks.length := by
  unfold krRows
  split
  · next h => simp [h]
  · next h =>
    rw [List.length_map]
    have h1 : 0 < kr.tasks.length := List.length_pos.mpr h
    omega

/-- An objective emits one placeholder row when childless, else the sum of its
KRs' row counts. -/
theorem length_objRows (client : String) (obj : Objective) :
    (objRows client obj).length =
      if obj.krs = [] then 1 else (obj.krs.map fun k => max 1 k.tasks.length).sum := by
  unfold objRows
  split
  · next h => simp [h]
  · next h =>
    rw [List.length_flatMap]
    exact congrArg List.sum
      (List.map_congr_left fun k _ => length_krRows client obj k)

/-- C4: `to_dataframe` emits exactly one placeholder row per childless
objective (`kr=""`, `tarefa=""`, avanco `0`, alvo `1`), exactly one
placeholder row per taskless KR (`tarefa=""` with the KR's current/target),
one row per task otherwise, so the total row count is the per-KR sum of
`max 1 (task count)` plus one per childless objective, and no objective or KR
is ever omitted. -/
theorem to_dataframe_spec (client : String) (objs : List Objective) :
    ((OKRState.to_dataframe client objs).length =
      (objs.map fun o => if o.krs = [] then 1 else
        (o.krs.map fun k => max 1 k.tasks.length).sum).sum) ∧
    (∀ o ∈ objs, o.krs = [] → objRows client o =
      [⟨o.department, o.name, "", "", "", "", some "", some 0, some 1, client⟩]) ∧
    (∀ o ∈ objs, ∀ k ∈ o.krs, k.tasks = [] → krRows client o k =
      [⟨o.department, o.name, k.name, "", "", "", some "", some k.current, some k.target,
        client⟩]) ∧
    (∀ o ∈ objs, ∀ k ∈ o.krs, k.tasks ≠ [] → krRows client o k =
      k.tasks.map fun task =>
        ⟨o.department, o.name, k.name, task.description, task.status,
          task.responsible, task.deadline, some k.current, some k.target, client⟩) ∧
    (∀ o ∈ objs, ∃ r ∈ OKRState.to_dataframe client objs,
      r.departamento = o.department ∧ r.objetivo = o.name) ∧
    (∀ o ∈ objs, ∀ k ∈ o.krs, ∃ r ∈ OKRState.to_dataframe client objs,
      r.departamento = o.department ∧ r.objetivo = o.name ∧ r.kr = k.name) := by
  refine ⟨?_, ?_, ?_, ?_, ?_, ?_⟩
  · unfold OKRState.to_dataframe
    rw [List.length_flatMap]
    exact congrArg List.sum
      (List.map_congr_left fun o _ => length_objRows client o)
  · intro o _ h
    unfold objRows
    rw [if_pos h]
  · intro o _ k _ h
    unfold krRows
    rw [if_pos h]
  · intro o _ k _ h
    unfold krRows
    rw [if_neg h]
  · intro o ho
    obtain ⟨r, hr⟩ := List.exists_mem_of_ne_nil _ (objRows_ne_nil client o)
    exact ⟨r, List.mem_flatMap_of_mem ho hr, mem_objRows_key hr⟩
  · intro o ho k hk
    obtain ⟨r, hr⟩ := List.exists_mem_of_ne_nil _ (krRows_ne_nil client o k)
    have hobj : r ∈ objRows client o := by
      unfold objRows
      rw [if_neg (List.ne_nil_of_mem hk)]
      exact List.mem_flatMap_of_mem hk hr
    have hf := mem_krRows_fields hr
    exact ⟨r, List.mem_flatMap_of_mem ho hobj, hf.1, hf.2.1, hf.2.2.1⟩

/-- C4 witness: the witness tree (one childless objective, one objective with
a two-task KR and a taskless KR) flattens to `1 + (2 + 1) = 4` rows, and the
childless objective emits exactly its placeholder row. -/
theorem to_dataframe_spec_witness :
    ((OKRState.to_dataframe "c" wTree).length = 4) ∧
    (objRows "c" ⟨"D", "O1", []⟩ =
      [⟨"D", "O1", "", "", "", "", some "", some 0, some 1, "c"⟩]) := by
  have h := to_dataframe_spec "c" wTree
  constructor
  · rw [h.1]
    decide
  · exact h.2.1 ⟨"D", "O1", []⟩ (by decide) rfl

/-- Appending a task to a named KR does not change the KR names of the list. -/
theorem addTaskNamed_map_name (nm : String) (t : Task) (krs : List KeyResult) :
    (addTaskNamed nm t krs).map KeyResult.name = krs.map KeyResult.name := by
  induction krs with
  | nil => rfl
  | cons k ks ih =>
    unfold addTaskNamed
    split
    · simp
    · simpa using ih

/-- Appending a task to a named KR keeps every KR of the list, with its name,
current value and target unchanged (only a task list may grow). -/
theorem mem_addTaskNamed_of_mem {krs : List KeyResult} {k : KeyResult} (hk : k ∈ krs)
    (nm : String) (t : Task) :
    ∃ k' ∈ addTaskNamed nm t krs,
      k'.name = k.name ∧ k'.current = k.current ∧ k'.target = k.target := by
  induction krs with
  | nil => cases hk
  | cons a as ih =>
    unfold addTaskNamed
    by_cases h : a.name = nm
    · rw [if_pos h]
      rcases List.mem_cons.mp hk with rfl | hmem
      · exact ⟨{ k with tasks := k.tasks ++ [t] }, List.mem_cons_self _ _, rfl, rfl, rfl⟩
      · exact ⟨k, List.mem_cons_of_mem _ hmem, rfl, rfl, rfl⟩
    · rw [if_neg h]
      rcases List.mem_cons.mp hk with rfl | hmem
      · exact ⟨k, List.mem_cons_self _ _, rfl, rfl, rfl⟩
      · obtain ⟨k', hk', hf⟩ := ih hmem
        exact ⟨k', List.mem_cons_of_mem _ hk', hf⟩

/-- Processing a row never changes the objective's key. -/
theorem processRowInObj_key (obj : Objective) (r : Record) :
    (processRowInObj obj r).department = obj.department ∧
      (processRowInObj obj r).name = obj.name := by
  unfold processRowInObj
  split
  · exact ⟨rfl, rfl⟩
  · split <;> exact ⟨rfl, rfl⟩

/-- The find-or-create step keeps every existing KR. -/
theorem mem_findOrCreateKR_of_mem {krs : List KeyResult} {k : KeyResult} (hk : k ∈ krs)
    (r : Record) : k ∈ findOrCreateKR krs r := by
  unfold findOrCreateKR
  split
  · exact hk
  · exact List.mem_append_left _ hk

/-- Processing a row keeps every existing KR of the objective, with name,
current and target unchanged. -/
theorem mem_krs_processRowInObj {obj : Objective} {k : KeyResult} (hk : k ∈ obj.krs)
    (r : Record) :
    ∃ k' ∈ (processRowInObj obj r).krs,
      k'.name = k.name ∧ k'.current = k.current ∧ k'.target = k.target := by
  unfold processRowInObj
  split
  · exact ⟨k, hk, rfl, rfl, rfl⟩
  · split
    · exact ⟨k, mem_findOrCreateKR_of_mem hk r, rfl, rfl, rfl⟩
    · exact mem_addTaskNamed_of_mem (mem_findOrCreateKR_of_mem hk r) _ _

/-- The find-or-create step preserves distinctness and non-emptiness of KR
names, given the row's `kr` is non-empty. -/
theorem findOrCreateKR_names {krs : List KeyResult} {r : Record} (hkr : r.kr ≠ "")
    (hnd : (krs.map KeyResult.name).Nodup) (hne : ∀ k ∈ krs, k.name ≠ "") :
    ((findOrCreateKR krs r).map KeyResult.name).Nodup ∧
      ∀ k ∈ findOrCreateKR krs r, k.name ≠ "" := by
  unfold findOrCreateKR
  split
  · exact ⟨hnd, hne⟩
  · next hex =>
    constructor
    · rw [List.map_append, List.nodup_append]
      refine ⟨hnd, List.nodup_singleton _, fun a ha hb => ?_⟩
      rw [List.map_singleton, List.mem_singleton] at hb
      subst hb
      obtain ⟨k, hk, hkname⟩ := List.mem_map.mp ha
      exact hex ⟨k, hk, hkname⟩
    · intro k hk
      rcases List.mem_append.mp hk with hk | hk
      · exact hne k hk
      · rw [List.mem_singleton] at hk
        subst hk
        exact hkr

/-- Processing a row preserves distinctness and non-emptiness of the
objective's KR names. -/
theorem processRowInObj_names {obj : Objective} (r : Record)
    (hnd : (obj.krs.map KeyResult.name).Nodup) (hne : ∀ k ∈ obj.krs, k.name ≠ "") :
    (((processRowInObj obj r).krs.map KeyResult.name).Nodup ∧
      ∀ k ∈ (processRowInObj obj r).krs, k.name ≠ "") := by
  unfold processRowInObj
  split
  · exact ⟨hnd, hne⟩
  · next hkr =>
    have hfc := findOrCreateKR_names hkr hnd hne
    split
    · exact hfc
    · constructor
      · rw [addTaskNamed_map_name]
        exact hfc.1
      · intro k hk
        have hnames : k.name ∈ (addTaskNamed r.kr (Record.toTask r)
            (findOrCreateKR obj.krs r)).map KeyResult.name :=
          List.mem_map_of_mem KeyResult.name hk
        rw [addTaskNamed_map_name] at hnames
        obtain ⟨k', hk', hkname⟩ := List.mem_map.mp hnames
        rw [← hkname]
        exact hfc.2 k' hk'

/-- One loop iteration preserves the per-objective KR-name invariant. -/
theorem processRow_names {objs : List Objective} {r : Record}
    (h : ∀ o ∈ objs, (o.krs.map KeyResult.name).Nodup ∧ ∀ k ∈ o.krs, k.name ≠ "") :
    ∀ o' ∈ processRow objs r,
      (o'.krs.map KeyResult.name).Nodup ∧ ∀ k ∈ o'.krs, k.name ≠ "" := by
  induction objs with
  | nil =>
    intro o' ho'
    rw [processRow, List.mem_singleton] at ho'
    subst ho'
    exact processRowInObj_names r (by simp) (by simp)
  | cons a as ih =>
    intro o' ho'
    rw [processRow] at ho'
    split at ho'
    · rcases List.mem_cons.mp ho' with rfl | hmem
      · exact processRowInObj_names r (h a (List.mem_cons_self _ _)).1
          (h a (List.mem_cons_self _ _)).2
      · exact h o' (List.mem_cons_of_mem _ hmem)
    · rcases List.mem_cons.mp ho' with rfl | hmem
      · exact h o' (List.mem_cons_self _ _)
      · exact ih (fun o ho => h o (List.mem_cons_of_mem _ ho)) o' hmem

/-- The KR-name invariant holds for every objective produced by folding any
rows onto any invariant-satisfying accumulator. -/
theorem foldl_processRow_names (recs : List Record) :
    ∀ objs : List Objective,
      (∀ o ∈ objs, (o.krs.map KeyResult.name).Nodup ∧ ∀ k ∈ o.krs, k.name ≠ "") →
      ∀ o' ∈ recs.foldl processRow objs,
        (o'.krs.map KeyResult.name).Nodup ∧ ∀ k ∈ o'.krs, k.name ≠ "" := by
  induction recs with
  | nil => exact fun objs h => h
  | cons r rs ih =>
    intro objs h
    exact ih (processRow objs r) (processRow_names h)

/-- One loop iteration keeps every existing objective (by key) and every
existing KR's name/current/target. -/
theorem processRow_preserves {objs : List Objective} (r : Record) :
    ∀ o ∈ objs, ∀ k ∈ o.krs,
      ∃ o' ∈ processRow objs r, o'.department = o.department ∧ o'.name = o.name ∧
        ∃ k' ∈ o'.krs, k'.name = k.name ∧ k'.current = k.current ∧ k'.target = k.target := by
  induction objs with
  | nil => intro o ho; cases ho
  | cons a as ih =>
    intro o ho k hk
    rw [processRow]
    split
    · rcases List.mem_cons.mp ho with rfl | hmem
      · obtain ⟨k', hk', hf⟩ := mem_krs_processRowInObj hk r
        exact ⟨processRowInObj o r, List.mem_cons_self _ _,
          (processRowInObj_key o r).1, (processRowInObj_key o r).2, k', hk', hf⟩
      · exact ⟨o, List.mem_cons_of_mem _ hmem, rfl, rfl, k, hk, rfl, rfl, rfl⟩
    · rcases List.mem_cons.mp ho with rfl | hmem
      · exact ⟨o, List.mem_cons_self _ _, rfl, rfl, k, hk, rfl, rfl, rfl⟩
      · obtain ⟨o', ho', hd, hn, k', hk', hf⟩ := ih o hmem k hk
        exact ⟨o', List.mem_cons_of_mem _ ho', hd, hn, k', hk', hf⟩

/-- Folding further rows keeps every existing objective (by key) and every
existing KR's name/current/target. -/
theorem foldl_processRow_preserves (recs : List Record) :
    ∀ objs : List Objective, ∀ o ∈ objs, ∀ k ∈ o.krs,
      ∃ o' ∈ recs.foldl processRow objs, o'.department = o.department ∧ o'.name = o.name ∧
        ∃ k' ∈ o'.krs, k'.name = k.name ∧ k'.current = k.current ∧ k'.target = k.target := by
  induction recs with
  | nil => exact fun objs o ho k hk => ⟨o, ho, rfl, rfl, k, hk, rfl, rfl, rfl⟩
  | cons r rs ih =>
    intro objs o ho k hk
    obtain ⟨o₁, ho₁, hd₁, hn₁, k₁, hk₁, hnm₁, hc₁, ht₁⟩ := processRow_preserves r o ho k hk
    obtain ⟨o₂, ho₂, hd₂, hn₂, k₂, hk₂, hnm₂, hc₂, ht₂⟩ := ih (processRow objs r) o₁ ho₁ k₁ hk₁
    exact ⟨o₂, ho₂, hd₂.trans hd₁, hn₂.trans hn₁, k₂, hk₂,
      hnm₂.trans hnm₁, hc₂.trans hc₁, ht₂.trans ht₁⟩

/-- Processing a row whose `kr` name is not yet present in the objective
creates that KR with the row's parsed current/target. -/
theorem processRowInObj_creates {obj : Objective} {r : Record} (hkr : r.kr ≠ "")
    (hnotin : ∀ k ∈ obj.krs, k.name ≠ r.kr) :
    ∃ k' ∈ (processRowInObj obj r).krs,
      k'.name = r.kr ∧ k'.current = parseCurrent r.avanco ∧ k'.target = parseTarget r.alvo := by
  have hfc : findOrCreateKR obj.krs r = obj.krs ++ [newKRFromRow r] := by
    unfold findOrCreateKR
    rw [if_neg]
    rintro ⟨k, hk, hkname⟩
    exact hnotin k hk hkname
  have hmem : newKRFromRow r ∈ findOrCreateKR obj.krs r := by
    rw [hfc]
    exact List.mem_append_right _ (List.mem_singleton.mpr rfl)
  unfold processRowInObj
  rw [if_neg hkr]
  split
  · exact ⟨newKRFromRow r, hmem, rfl, rfl, rfl⟩
  · obtain ⟨k', hk', hf⟩ := mem_addTaskNamed_of_mem hmem r.kr (Record.toTask r)
    exact ⟨k', hk', hf.1, hf.2.1, hf.2.2⟩

/-- One loop iteration on a row whose `kr` name is not yet present in the
row's objective group creates that KR (in that group) with the row's parsed
current/target. -/
theorem processRow_creates {objs : List Objective} {r : Record} (hkr : r.kr ≠ "")
    (hno : ∀ o ∈ objs, (o.department = r.departamento ∧ o.name = r.objetivo) →
      ∀ k ∈ o.krs, k.name ≠ r.kr) :
    ∃ o' ∈ processRow objs r, o'.department = r.departamento ∧ o'.name = r.objetivo ∧
      ∃ k' ∈ o'.krs, k'.name = r.kr ∧ k'.current = parseCurrent r.avanco ∧
        k'.target = parseTarget r.alvo := by
  induction objs with
  | nil =>
    rw [processRow]
    refine ⟨_, List.mem_singleton.mpr rfl, (processRowInObj_key _ r).1,
      (processRowInObj_key _ r).2, ?_⟩
    exact processRowInObj_creates hkr (by simp)
  | cons a as ih =>
    rw [processRow]
    split
    · next hmatch =>
      refine ⟨processRowInObj a r, List.mem_cons_self _ _, ?_, ?_, ?_⟩
      · rw [(processRowInObj_key a r).1, hmatch.1]
      · rw [(processRowInObj_key a r).2, hmatch.2]
      · exact processRowInObj_creates hkr
          (hno a (List.mem_cons_self _ _) ⟨hmatch.1, hmatch.2⟩)
    · obtain ⟨o', ho', hf⟩ := ih fun o ho => hno o (List.mem_cons_of_mem _ ho)
      exact ⟨o', List.mem_cons_of_mem _ ho', hf⟩

/-- C5: `_parse_dataframe` creates at most one KR per distinct non-empty
`kr` name within an objective (names are distinct and non-empty); a KR's
current/target are fixed by the record that created it — appending further
records never changes an existing KR's name, current or target, while a fresh
non-empty `kr` name is created with the new row's parsed values; and the
parsed numeric defaults are `1.0` for a missing/falsy `alvo` and `0.0` for a
missing/falsy `avanco`. -/
theorem parse_dataframe_kr_spec :
    (∀ recs : List Record, ∀ o ∈ OKRState.parse_dataframe recs,
      (o.krs.map KeyResult.name).Nodup ∧ ∀ k ∈ o.krs, k.name ≠ "") ∧
    (∀ pre post : List Record, ∀ o ∈ OKRState.parse_dataframe pre, ∀ k ∈ o.krs,
      ∃ o' ∈ OKRState.parse_dataframe (pre ++ post),
        o'.department = o.department ∧ o'.name = o.name ∧
        ∃ k' ∈ o'.krs, k'.name = k.name ∧ k'.current = k.current ∧ k'.target = k.target) ∧
    (∀ recs : List Record, ∀ r : Record, r.kr ≠ "" →
      (∀ o ∈ OKRState.parse_dataframe recs,
        (o.department = r.departamento ∧ o.name = r.objetivo) → ∀ k ∈ o.krs, k.name ≠ r.kr) →
      ∃ o' ∈ OKRState.parse_dataframe (recs ++ [r]),
        o'.department = r.departamento ∧ o'.name = r.objetivo ∧
        ∃ k' ∈ o'.krs, k'.name = r.kr ∧ k'.current = parseCurrent r.avanco ∧
          k'.target = parseTarget r.alvo) ∧
    (parseTarget none = 1 ∧ parseTarget (some 0) = 1 ∧
      parseCurrent none = 0 ∧ parseCurrent (some 0) = 0) := by
  refine ⟨?_, ?_, ?_, rfl, by norm_num [parseTarget], rfl, by norm_num [parseCurrent]⟩
  · intro recs
    exact foldl_processRow_names recs [] (by simp)
  · intro pre post o ho k hk
    unfold OKRState.parse_dataframe at ho ⊢
    rw [List.foldl_append]
    exact foldl_processRow_preserves post (pre.foldl processRow []) o ho k hk
  · intro recs r hkr hno
    unfold OKRState.parse_dataframe at hno ⊢
    rw [List.foldl_append, List.foldl_cons, List.foldl_nil]
    exact processRow_creates hkr hno

/-- C5 witness: parsing `[dupRow1]` creates KR `"K"` with current `2`, target
`7`; appending the duplicate `dupRow2` (current `9`, target `9`) leaves those
values untouched; and the falsy defaults evaluate as specified. -/
theorem parse_dataframe_kr_spec_witness :
    (∃ o' ∈ OKRState.parse_dataframe ([dupRow1] ++ [dupRow2]),
      o'.department = "D" ∧ o'.name = "O" ∧
      ∃ k' ∈ o'.krs, k'.name = "K" ∧ k'.current = 2 ∧ k'.target = 7) ∧
    (∃ o' ∈ OKRState.parse_dataframe ([] ++ [dupRow1]),
      o'.department = "D" ∧ o'.name = "O" ∧
      ∃ k' ∈ o'.krs, k'.name = "K" ∧ k'.current = parseCurrent dupRow1.avanco ∧
        k'.target = parseTarget dupRow1.alvo) := by
  have h := parse_dataframe_kr_spec
  constructor
  · obtain ⟨o', ho', hd, hn, k', hk', hf⟩ :=
      h.2.1 [dupRow1] [dupRow2]
        ⟨"D", "O", [⟨"K", 7, 2, []⟩]⟩ (by decide) ⟨"K", 7, 2, []⟩ (by decide)
    exact ⟨o', ho', hd, hn, k', hk', hf⟩
  · exact h.2.2.1 [] dupRow1 (by decide) (by intro o ho; cases ho)

/-- C9 witness: renaming `"Geral"` to `"Novo"` retags the matching objective
and sets the dirty flag; deleting `"Mkt"` removes its objective and sets the
dirty flag. -/
theorem rename_delete_department_spec_witness :
    ((w9State.rename_department "Geral" "Novo").is_dirty = true) ∧
    ((w9State.delete_department "Mkt").is_dirty = true) ∧
    ((w9State.rename_department "Geral" "Novo").objectives =
      w9State.objectives.map fun o =>
        if o.department = "Geral" then { o with department := "Novo" } else o) ∧
    ((w9State.delete_department "Mkt").objectives =
      w9State.objectives.filter fun o => ¬ (o.department = "Mkt")) := by
  have h := rename_delete_department_spec w9State "Geral" "Novo" "Mkt" (by decide)
  exact ⟨h.2.1 (by decide), h.2.2.2.2.1 (by decide), h.1, h.2.2.2.1⟩

/-- A stored nonzero target is read back unchanged. -/
theorem parseTarget_some_ne {a : ℚ} (h : a ≠ 0) : parseTarget (some a) = a := if_neg h

/-- A stored current value is always read back unchanged (`0.0 or 0.0` is
`0.0`). -/
theorem parseCurrent_some (a : ℚ) : parseCurrent (some a) = a := by
  rcases eq_or_ne a 0 with h | h <;> simp [parseCurrent, h]

/-- A row whose key matches no objective in the accumulator appends a fresh
objective (the dict-miss branch of the grouping loop). -/
theorem processRow_not_mem {objs : List Objective} {r : Record}
    (h : ∀ o ∈ objs, ¬(o.department = r.departamento ∧ o.name = r.objetivo)) :
    processRow objs r =
      objs ++ [processRowInObj ⟨r.departamento, r.objetivo, []⟩ r] := by
  induction objs with
  | nil => rfl
  | cons a as ih =>
    rw [processRow, if_neg (h a (List.mem_cons_self _ _)),
      ih fun o ho => h o (List.mem_cons_of_mem _ ho), List.cons_append]

/-- A row whose key matches the last objective (and none before it) is
processed inside that objective. -/
theorem processRow_focus {l₁ : List Objective} {o : Objective} {r : Record}
    (h₁ : ∀ o' ∈ l₁, ¬(o'.department = r.departamento ∧ o'.name = r.objetivo))
    (ho : o.department = r.departamento ∧ o.name = r.objetivo) :
    processRow (l₁ ++ [o]) r = l₁ ++ [processRowInObj o r] := by
  induction l₁ with
  | nil =>
    rw [List.nil_append, processRow, if_pos ho, List.nil_append]
  | cons a as ih =>
    rw [List.cons_append, processRow, if_neg (h₁ a (List.mem_cons_self _ _)),
      ih fun o' ho' => h₁ o' (List.mem_cons_of_mem _ ho'), List.cons_append]

/-- Folding rows that all carry the key of the last objective (a key absent
from the rest of the accumulator) folds them inside that objective. -/
theorem foldl_processRowInObj_focus {acc : List Objective} {d n : String}
    {rows : List Record} {o : Objective}
    (hacc : ∀ o' ∈ acc, ¬(o'.department = d ∧ o'.name = n))
    (hkey : o.department = d ∧ o.name = n)
    (hrows : ∀ r ∈ rows, r.departamento = d ∧ r.objetivo = n) :
    List.foldl processRow (acc ++ [o]) rows =
      acc ++ [List.foldl processRowInObj o rows] := by
  induction rows generalizing o with
  | nil => rfl
  | cons r rs ih =>
    have hr := hrows r (List.mem_cons_self _ _)
    rw [List.foldl_cons, List.foldl_cons,
      processRow_focus (fun o' ho' => by rw [hr.1, hr.2]; exact hacc o' ho')
        ⟨hkey.1.trans hr.1.symm, hkey.2.trans hr.2.symm⟩]
    exact ih ⟨(processRowInObj_key o r).1.trans hkey.1, (processRowInObj_key o r).2.trans hkey.2⟩
      fun r' hr' => hrows r' (List.mem_cons_of_mem _ hr')

/-- Folding a nonempty run of rows that all carry one key, absent from the
accumulator, appends the objective built by folding them from the empty seed
objective. -/
theorem foldl_processRow_newGroup {acc : List Objective} {d n : String}
    {rows : List Record}
    (hacc : ∀ o' ∈ acc, ¬(o'.department = d ∧ o'.name = n))
    (hne : rows ≠ [])
    (hrows : ∀ r ∈ rows, r.departamento = d ∧ r.objetivo = n) :
    List.foldl processRow acc rows =
      acc ++ [List.foldl processRowInObj ⟨d, n, []⟩ rows] := by
  cases rows with
  | nil => exact absurd rfl hne
  | cons r rs =>
    have hr := hrows r (List.mem_cons_self _ _)
    have h1 : processRow acc r = acc ++ [processRowInObj ⟨d, n, []⟩ r] := by
      rw [processRow_not_mem fun o ho hm => hacc o ho ⟨hm.1.trans hr.1, hm.2.trans hr.2⟩,
        hr.1, hr.2]
    rw [List.foldl_cons, h1, List.foldl_cons]
    exact foldl_processRowInObj_focus hacc
      ⟨(processRowInObj_key _ r).1, (processRowInObj_key _ r).2⟩
      fun r' hr' => hrows r' (List.mem_cons_of_mem _ hr')

/-- Appending a task to a name that occurs only at the end of the KR list
appends the task to that last KR. -/
theorem addTaskNamed_append_last {done : List KeyResult} {kr : KeyResult} {nm : String}
    (t : Task) (hnotin : nm ∉ done.map KeyResult.name) (hname : kr.name = nm) :
    addTaskNamed nm t (done ++ [kr]) = done ++ [{ kr with tasks := kr.tasks ++ [t] }] := by
  induction done with
  | nil =>
    rw [List.nil_append, addTaskNamed, if_pos hname, List.nil_append]
  | cons a as ih =>
    have ha : ¬(a.name = nm) := by
      intro h
      apply hnotin
      rw [List.map_cons, ← h]
      exact List.mem_cons_self _ _
    rw [List.cons_append, addTaskNamed, if_neg ha,
      ih fun hmem => hnotin (by rw [List.map_cons]; exact List.mem_cons_of_mem _ hmem),
      List.cons_append]

/-- Folding the task rows of a KR that is already the last entry of the
objective's KR list appends exactly those tasks to it. -/
theorem foldl_taskRows (client : String) (o : Objective) (done : List KeyResult)
    (nm : String) (tg cu : ℚ) (ts0 ts : List Task)
    (hnm : nm ≠ "") (hnotin : nm ∉ done.map KeyResult.name)
    (hts : ∀ t ∈ ts, t.description ≠ "" ∧ t.deadline ≠ none) :
    List.foldl processRowInObj ⟨o.department, o.name, done ++ [⟨nm, tg, cu, ts0⟩]⟩
      (ts.map fun task => (⟨o.department, o.name, nm, task.description, task.status,
        task.responsible, task.deadline, some cu, some tg, client⟩ : Record))
    = ⟨o.department, o.name, done ++ [⟨nm, tg, cu, ts0 ++ ts⟩]⟩ := by
  induction ts generalizing ts0 with
  | nil => rw [List.map_nil, List.foldl_nil, List.append_nil]
  | cons t ts' ih =>
    have hwt := hts t (List.mem_cons_self _ _)
    rw [List.map_cons, List.foldl_cons]
    have htt : Record.toTask ⟨o.department, o.name, nm, t.description, t.status,
        t.responsible, t.deadline, some cu, some tg, client⟩ = t := by
      obtain ⟨s, hs⟩ := Option.ne_none_iff_exists'.mp hwt.2
      show Task.mk t.description t.status t.responsible (some (t.deadline.getD "")) = t
      rw [hs]
      show Task.mk t.description t.status t.responsible (some s) = t
      rw [← hs]
    have hfc : findOrCreateKR (done ++ [(⟨nm, tg, cu, ts0⟩ : KeyResult)])
        ⟨o.department, o.name, nm, t.description, t.status,
          t.responsible, t.deadline, some cu, some tg, client⟩
        = done ++ [⟨nm, tg, cu, ts0⟩] := by
      unfold findOrCreateKR
      exact if_pos ⟨⟨nm, tg, cu, ts0⟩,
        List.mem_append_right _ (List.mem_singleton.mpr rfl), rfl⟩
    have hstep : processRowInObj ⟨o.department, o.name, done ++ [⟨nm, tg, cu, ts0⟩]⟩
        ⟨o.department, o.name, nm, t.description, t.status,
          t.responsible, t.deadline, some cu, some tg, client⟩
        = ⟨o.department, o.name, done ++ [⟨nm, tg, cu, ts0 ++ [t]⟩]⟩ := by
      unfold processRowInObj
      rw [if_neg hnm, if_neg hwt.1, hfc, addTaskNamed_append_last _ hnotin rfl, htt]
    rw [hstep, ih (ts0 ++ [t]) fun t' ht' => hts t' (List.mem_cons_of_mem _ ht'),
      List.append_assoc, List.singleton_append]

/-- Folding the rows of one well-formed KR, whose name is not yet present,
appends exactly that KR to the objective. -/
theorem foldl_krRows (client : String) (o : Objective) (done : List KeyResult)
    (k : KeyResult) (hname : k.name ≠ "") (htg : k.target ≠ 0)
    (hts : ∀ t ∈ k.tasks, t.description ≠ "" ∧ t.deadline ≠ none)
    (hnotin : k.name ∉ done.map KeyResult.name) :
    List.foldl processRowInObj ⟨o.department, o.name, done⟩ (krRows client o k)
      = ⟨o.department, o.name, done ++ [k]⟩ := by
  have hfcnew : ∀ r : Record, r.kr = k.name →
      findOrCreateKR done r = done ++ [newKRFromRow r] := by
    intro r hrk
    unfold findOrCreateKR
    rw [if_neg]
    rintro ⟨k', hk', hk'name⟩
    rw [hrk] at hk'name
    exact hnotin (hk'name ▸ List.mem_map_of_mem KeyResult.name hk')
  unfold krRows
  split
  · next htasks =>
    rw [List.foldl_cons, List.foldl_nil]
    unfold processRowInObj
    rw [if_neg hname, if_pos rfl,
      hfcnew ⟨o.department, o.name, k.name, "", "", "", some "",
        some k.current, some k.target, client⟩ rfl]
    have hnew : newKRFromRow ⟨o.department, o.name, k.name, "", "", "", some "",
        some k.current, some k.target, client⟩ = k := by
      unfold newKRFromRow
      show KeyResult.mk k.name (parseTarget (some k.target)) (parseCurrent (some k.current)) []
        = k
      rw [parseTarget_some_ne htg, parseCurrent_some, ← htasks]
    rw [hnew]
  · next htasks =>
    rcases hts0 : k.tasks with _ | ⟨t₀, ts'⟩
    · exact absurd hts0 htasks
    · have hwt₀ := hts t₀ (by rw [hts0]; exact List.mem_cons_self _ _)
      rw [List.map_cons, List.foldl_cons]
      have htt : Record.toTask ⟨o.department, o.name, k.name, t₀.description, t₀.status,
          t₀.responsible, t₀.deadline, some k.current, some k.target, client⟩ = t₀ := by
        obtain ⟨s, hs⟩ := Option.ne_none_iff_exists'.mp hwt₀.2
        show Task.mk t₀.description t₀.status t₀.responsible (some (t₀.deadline.getD "")) = t₀
        rw [hs]
        show Task.mk t₀.description t₀.status t₀.responsible (some s) = t₀
        rw [← hs]
      have hstep : processRowInObj ⟨o.department, o.name, done⟩
          ⟨o.department, o.name, k.name, t₀.description, t₀.status,
            t₀.responsible, t₀.deadline, some k.current, some k.target, client⟩
          = ⟨o.department, o.name, done ++ [⟨k.name, k.target, k.current, [t₀]⟩]⟩ := by
        unfold processRowInObj
        rw [if_neg hname, if_neg hwt₀.1,
          hfcnew ⟨o.department, o.name, k.name, t₀.description, t₀.status,
            t₀.responsible, t₀.deadline, some k.current, some k.target, client⟩ rfl]
        have hnew : newKRFromRow ⟨o.department, o.name, k.name, t₀.description, t₀.status,
            t₀.responsible, t₀.deadline, some k.current, some k.target, client⟩
            = ⟨k.name, k.target, k.current, []⟩ := by
          unfold newKRFromRow
          show KeyResult.mk k.name (parseTarget (some k.target))
            (parseCurrent (some k.current)) [] = ⟨k.name, k.target, k.current, []⟩
          rw [parseTarget_some_ne htg, parseCurrent_some]
        rw [hnew]
        dsimp only
        rw [@addTaskNamed_append_last done ⟨k.name, k.target, k.current, []⟩ k.name _
          hnotin rfl, htt]
        rfl
      rw [hstep,
        foldl_taskRows client o done k.name k.target k.current [t₀] ts' hname hnotin
          fun t' ht' => hts t' (by rw [hts0]; exact List.mem_cons_of_mem _ ht'),
        List.singleton_append, ← hts0]

/-- Folding the rows of a run of well-formed KRs with fresh distinct names
appends exactly those KRs, in order. -/
theorem foldl_objKRRows (client : String) (o : Objective) (done todo : List KeyResult)
    (hdisj : ∀ k ∈ todo, k.name ∉ done.map KeyResult.name)
    (hnd : (todo.map KeyResult.name).Nodup)
    (hwf : ∀ k ∈ todo, k.name ≠ "" ∧ k.target ≠ 0 ∧
      ∀ t ∈ k.tasks, t.description ≠ "" ∧ t.deadline ≠ none) :
    List.foldl processRowInObj ⟨o.department, o.name, done⟩ (todo.flatMap (krRows client o))
      = ⟨o.department, o.name, done ++ todo⟩ := by
  induction todo generalizing done with
  | nil => rw [List.flatMap_nil, List.foldl_nil, List.append_nil]
  | cons k ks ih =>
    have hk := hwf k (List.mem_cons_self _ _)
    rw [List.flatMap_cons, List.foldl_append,
      foldl_krRows client o done k hk.1 hk.2.1 hk.2.2 (hdisj k (List.mem_cons_self _ _))]
    rw [List.map_cons, List.nodup_cons] at hnd
    have hdisj' : ∀ k' ∈ ks, k'.name ∉ (done ++ [k]).map KeyResult.name := by
      intro k' hk' hmem
      rw [List.map_append, List.mem_append] at hmem
      rcases hmem with hm | hm
      · exact hdisj k' (List.mem_cons_of_mem _ hk') hm
      · rw [List.map_singleton, List.mem_singleton] at hm
        exact hnd.1 (hm ▸ List.mem_map_of_mem KeyResult.name hk')
    rw [ih (done ++ [k]) hdisj' hnd.2 fun k' hk' => hwf k' (List.mem_cons_of_mem _ hk'),
      List.append_assoc, List.singleton_append]

/-- Folding all rows of a well-formed objective from its empty seed rebuilds
the objective exactly. -/
theorem foldl_objRows_total (client : String) (o : Objective) (hwf : WFObjective o) :
    List.foldl processRowInObj ⟨o.department, o.name, []⟩ (objRows client o) = o := by
  unfold objRows
  split
  · next h =>
    rw [List.foldl_cons, List.foldl_nil]
    unfold processRowInObj
    rw [if_pos rfl, ← h]
  · next _ =>
    have h := foldl_objKRRows client o [] o.krs (by simp) hwf.1 hwf.2
    rw [h]
    rfl

/-- Folding the flattened rows of a run of well-formed objectives with
pairwise-distinct keys (all absent from the accumulator) appends exactly those
objectives, in order. -/
theorem foldl_processRow_groups (client : String) (done todo : List Objective)
    (hkeys : ∀ o ∈ todo, ∀ o' ∈ done,
      ¬(o'.department = o.department ∧ o'.name = o.name))
    (hnd : (todo.map fun o => (o.department, o.name)).Nodup)
    (hwf : ∀ o ∈ todo, WFObjective o) :
    List.foldl processRow done (todo.flatMap (objRows client)) = done ++ todo := by
  induction todo generalizing done with
  | nil => rw [List.flatMap_nil, List.foldl_nil, List.append_nil]
  | cons o os ih =>
    rw [List.flatMap_cons, List.foldl_append]
    have h1 : List.foldl processRow done (objRows client o) = done ++ [o] := by
      rw [foldl_processRow_newGroup (d := o.department) (n := o.name)
          (fun o' ho' => hkeys o (List.mem_cons_self _ _) o' ho')
          (objRows_ne_nil client o) (fun r hr => mem_objRows_key hr),
        foldl_objRows_total client o (hwf o (List.mem_cons_self _ _))]
    rw [h1]
    rw [List.map_cons, List.nodup_cons] at hnd
    have hkeys' : ∀ o₁ ∈ os, ∀ o' ∈ done ++ [o],
        ¬(o'.department = o₁.department ∧ o'.name = o₁.name) := by
      intro o₁ h₁ o' ho' hm
      rcases List.mem_append.mp ho' with hm' | hm'
      · exact hkeys o₁ (List.mem_cons_of_mem _ h₁) o' hm' hm
      · rw [List.mem_singleton] at hm'
        rw [hm'] at hm
        apply hnd.1
        have hkey : ((o.department, o.name) : String × String)
            = (o₁.department, o₁.name) := by rw [hm.1, hm.2]
        rw [hkey]
        exact List.mem_map_of_mem _ h₁
    rw [ih (done ++ [o]) hkeys' hnd.2 fun o₁ h₁ => hwf o₁ (List.mem_cons_of_mem _ h₁),
      List.append_assoc, List.singleton_append]

/-- C1 counterexample: the tree whose single KR has `target = 0, current = 5`
does not survive the round trip — `float(row['alvo'] or 1.0)` treats the
stored `0.0` target as falsy, so the KR is reloaded with target `1`, and the
views (the multisets of per-objective/per-KR/per-task value tuples, ignoring
ids) differ. -/
theorem roundtrip_cex :
    treeView (OKRState.parse_dataframe (OKRState.to_dataframe "c" cexTree))
      ≠ treeView cexTree := by
  decide

/-- C1 (amended): for trees in which no two objectives share a
`(department, name)` key and every objective is well formed — KR names
distinct and non-empty, KR targets nonzero, task descriptions non-empty and
task deadlines non-`None` — `fromRecords(toRecords(T))` rebuilds the tree
exactly (in the id-less model), hence with the same multiset of (department,
objective name, KR name, KR current, KR target, task fields), irrespective of
generated ids.  The counterexample shows the hypotheses cannot all be
dropped. -/
theorem roundtrip_amended (client : String) (objs : List Objective)
    (hkeys : (objs.map fun o => (o.department, o.name)).Nodup)
    (hwf : ∀ o ∈ objs, WFObjective o) :
    OKRState.parse_dataframe (OKRState.to_dataframe client objs) = objs ∧
    treeView (OKRState.parse_dataframe (OKRState.to_dataframe client objs))
      = treeView objs := by
  have h := foldl_processRow_groups client [] objs
    (fun o _ o' ho' => absurd ho' (List.not_mem_nil o')) hkeys hwf
  rw [List.nil_append] at h
  have h2 : OKRState.parse_dataframe (OKRState.to_dataframe client objs) = objs := by
    unfold OKRState.parse_dataframe OKRState.to_dataframe
    exact h
  exact ⟨h2, by rw [h2]⟩

/-- C1 witness: the concrete well-formed tree `wTree` (a childless objective
plus an objective with a two-task KR and a taskless KR) round-trips exactly. -/
theorem roundtrip_amended_witness :
    OKRState.parse_dataframe (OKRState.to_dataframe "c" wTree) = wTree ∧
    treeView (OKRState.parse_dataframe (OKRState.to_dataframe "c" wTree))
      = treeView wTree :=
  roundtrip_amended "c" wTree (by decide) (by decide)

end Okr
